import Mathlib

/-!
Verification development for the audio-video-transcriber repository.

All Python floats are modelled as exact rationals (ℚ); Python `int()` /
`//` truncation on nonnegative values is `Nat.floor`; Python's
round-half-to-even `round` is modelled by `pyRound` below.  Byte strings
are `List ℕ` (each entry `< 256`).  Python dicts holding segments are
modelled by the `Segment` structure, and the mutable-dict heap used by
`generate_with_overlapping` is modelled explicitly by `Heap`.
-/

/-- Python's `round`: round half to even, on an exact rational. -/
def pyRound (q : ℚ) : ℤ :=
  let f : ℤ := ⌊q⌋
  let r : ℚ := q - f
  if r < 1/2 then f
  else if 1/2 < r then f + 1
  else if 2 ∣ f then f else f + 1

/-- Python's `round(x, 3)`: round to 3 decimal places, half to even. -/
def round3 (q : ℚ) : ℚ := (pyRound (q * 1000) : ℚ) / 1000

/-- Maximal runs of non-whitespace characters: the token list underlying
Python's `str.split()` (no arguments: split on whitespace runs, drop
empty pieces). -/
def wsGo : List Char → List Char → List (List Char)
  | [], cur => if cur = [] then [] else [cur.reverse]
  | c :: cs, cur =>
    if c.isWhitespace then
      if cur = [] then wsGo cs [] else cur.reverse :: wsGo cs []
    else wsGo cs (c :: cur)

/-- The token list of a character list (see `wsGo`). -/
def wsTokens (l : List Char) : List (List Char) := wsGo l []

/-- Python `s.split()` (whitespace split, empties dropped). -/
def pySplit (s : String) : List String := (wsTokens s.data).map String.mk

/-- Python `" ".join(ws)`. -/
def pyJoin : List String → String
  | [] => ""
  | [x] => x
  | x :: y :: xs => x ++ " " ++ pyJoin (y :: xs)

/-- Python `sep.join(ws)` for a general separator. -/
def joinWith (sep : String) : List String → String
  | [] => ""
  | [x] => x
  | x :: y :: xs => x ++ sep ++ joinWith sep (y :: xs)

/-- A transcription segment: the Python dict `{"start": .., "end": ..,
"text": ..}` (`stop` embeds the key `"end"`, a Lean keyword). -/
structure Segment where
  start : ℚ
  stop : ℚ
  text : String
deriving DecidableEq, Repr, Inhabited

/-! ## srt_generator.py -/

/-- Two-digit zero-padded decimal (`"%02d"` for a nonnegative value). -/
def pad2 (n : ℕ) : String := if n < 10 then "0" ++ toString n else toString n

/-- Three-digit zero-padded decimal (`"%03d"` for a nonnegative value). -/
def pad3 (n : ℕ) : String :=
  if n < 10 then "00" ++ toString n
  else if n < 100 then "0" ++ toString n
  else toString n

/-- Python `a % b` for nonnegative `a` and positive `b`. -/
def pmod (a b : ℚ) : ℚ := a - b * (⌊a / b⌋₊ : ℚ)

/-- `SRTGenerator.format_timestamp` (srt_generator.py lines 23-38); the
method ignores `self`.  `int(x)` and `//` on the nonnegative inputs of
the claims' domain are `Nat.floor`. -/
def format_timestamp (seconds : ℚ) : String :=
  let hours : ℕ := ⌊seconds / 3600⌋₊
  let minutes : ℕ := ⌊(pmod seconds 3600) / 60⌋₊
  let secs : ℕ := ⌊pmod seconds 60⌋₊
  let millisecs : ℕ := ⌊(pmod seconds 1) * 1000⌋₊
  pad2 hours ++ ":" ++ pad2 minutes ++ ":" ++ pad2 secs ++ "," ++ pad3 millisecs

/-- `parse_srt_timestamp` (srt_generator.py lines 224-238):
`re.match(r"(\d\x7b2\x7d):(\d\x7b2\x7d):(\d\x7b2\x7d),(\d\x7b3\x7d)", ..)`
anchors at the start, allows trailing characters, and yields `0.0` on a
mismatch. -/
def parse_srt_timestamp (s : String) : ℚ :=
  match s.data with
  | c0 :: c1 :: c2 :: c3 :: c4 :: c5 :: c6 :: c7 :: c8 :: c9 :: c10 :: c11 :: _ =>
    if c0.isDigit ∧ c1.isDigit ∧ c2 = ':' ∧ c3.isDigit ∧ c4.isDigit ∧ c5 = ':' ∧
        c6.isDigit ∧ c7.isDigit ∧ c8 = ',' ∧ c9.isDigit ∧ c10.isDigit ∧ c11.isDigit then
      let hours : ℕ := 10 * (c0.toNat - 48) + (c1.toNat - 48)
      let minutes : ℕ := 10 * (c3.toNat - 48) + (c4.toNat - 48)
      let seconds : ℕ := 10 * (c6.toNat - 48) + (c7.toNat - 48)
      let millis : ℕ := 100 * (c9.toNat - 48) + 10 * (c10.toNat - 48) + (c11.toNat - 48)
      ((hours * 3600 + minutes * 60 + seconds : ℕ) : ℚ) + (millis : ℚ) / 1000
    else 0
  | _ => 0

/-- Greedy word-packing loop inside `SRTGenerator.wrap_text`. -/
def wrapWords (maxChars : ℕ) : List String → List String → List String
  | [], currentLine =>
    match currentLine with
    | [] => []
    | _ => [pyJoin currentLine]
  | w :: ws, currentLine =>
    let testLine := pyJoin (currentLine ++ [w])
    if testLine.length ≤ maxChars then wrapWords maxChars ws (currentLine ++ [w])
    else
      match currentLine with
      | [] => wrapWords maxChars ws [w]
      | _ => pyJoin currentLine :: wrapWords maxChars ws [w]

/-- `SRTGenerator.wrap_text` (srt_generator.py lines 40-69). -/
def wrap_text (maxChars : ℕ) (text : String) : List String :=
  (text.splitOn "\n").flatMap fun paragraph =>
    let paragraph := pyJoin (pySplit paragraph)
    if paragraph = "" then []
    else wrapWords maxChars (pySplit paragraph) []

/-- `SRTGenerator.generate_segment` (srt_generator.py lines 96-121). -/
def generate_segment (maxChars : ℕ) (index : ℕ) (start stop : ℚ) (text : String) : String :=
  let start_time := format_timestamp start
  let end_time := format_timestamp stop
  let lines := wrap_text maxChars text
  toString index ++ "\n" ++ start_time ++ " --> " ++ end_time ++ "\n" ++
    joinWith "\n" lines ++ "\n"

/-- The list `srt_lines` built by `SRTGenerator.generate_srt`
(srt_generator.py lines 134-147): `enumerate(segments, start=1)` indexes
every input segment, and empty-text segments are skipped after the index
is drawn. -/
def srtLines (maxChars : ℕ) (segments : List Segment) : List String :=
  segments.enum.filterMap fun p =>
    if p.2.text.trim = "" then none
    else some (generate_segment maxChars (p.1 + 1) p.2.start p.2.stop p.2.text)

/-- `SRTGenerator.generate_srt` (srt_generator.py lines 123-149). -/
def generate_srt (maxChars : ℕ) (segments : List Segment) : String :=
  joinWith "\n" (srtLines maxChars segments)

/-! ## generate_with_overlapping and its mutable-dict heap

Python segment dicts are mutable objects; to settle the frame-effect
claim we model references explicitly: a `Heap` is the store of all
segment dicts, and a Python list of dicts is a `List ℕ` of addresses
into it.  `seg.copy()` allocates a fresh address; item assignment writes
through an address. -/

structure Heap where
  data : List Segment
deriving Repr

/-- Dereference (dicts in this model always carry the three keys). -/
def heapGet (h : Heap) (a : ℕ) : Segment := h.data.getD a default

/-- `segment.copy()`: allocate a fresh dict with the same contents. -/
def heapCopy (h : Heap) (a : ℕ) : Heap × ℕ :=
  (⟨h.data ++ [heapGet h a]⟩, h.data.length)

/-- `seg_copy["end"] = v`. -/
def heapSetEnd (h : Heap) (a : ℕ) (v : ℚ) : Heap :=
  ⟨h.data.set a { heapGet h a with stop := v }⟩

/-- The loop of `SRTGenerator.generate_with_overlapping`
(srt_generator.py lines 178-184), processed left to right; the second
list element gives access to `segments[i + 1]` when present. -/
def gwoGo (overlap : ℚ) (h : Heap) : List ℕ → Heap × List ℕ
  | [] => (h, [])
  | [a] =>
    let p := heapCopy h a
    (p.1, [p.2])
  | a :: b :: rest =>
    let p := heapCopy h a
    let next_start := (heapGet p.1 b).start
    let h2 := heapSetEnd p.1 p.2 (min (heapGet p.1 p.2).stop (next_start - overlap))
    let q := gwoGo overlap h2 (b :: rest)
    (q.1, p.2 :: q.2)

/-- `SRTGenerator.generate_with_overlapping` (srt_generator.py lines
164-186): returns the final heap together with the generated document. -/
def generate_with_overlapping (maxChars : ℕ) (h : Heap) (segments : List ℕ)
    (overlap : ℚ) : Heap × String :=
  let q := gwoGo overlap h segments
  (q.1, generate_srt maxChars (q.2.map (heapGet q.1)))

/-! ## vad.py -/

/-- Insertion into a sorted list, used to model Python's `sorted`. -/
def insertSorted (x : ℚ) : List ℚ → List ℚ
  | [] => [x]
  | y :: ys => if x ≤ y then x :: y :: ys else y :: insertSorted x ys

/-- Python `sorted(arr)` for rationals. -/
def pySorted (l : List ℚ) : List ℚ := l.foldr insertSorted []

/-- `_percentile` (vad.py lines 15-25): linear interpolation between the
two bracketing order statistics. -/
def percentile (arr : List ℚ) (percent : ℚ) : ℚ :=
  let arr := pySorted arr
  let k : ℚ := ((arr.length - 1 : ℕ) : ℚ) * percent
  let f : ℤ := ⌊k⌋
  let c : ℤ := ⌈k⌉
  if f = c then arr.getD (⌊k⌋).toNat 0
  else
    arr.getD f.toNat 0 * ((c : ℚ) - k) + arr.getD c.toNat 0 * (k - (f : ℚ))

/-- Little-endian value of a byte group. -/
def leVal : List ℕ → ℕ
  | [] => 0
  | b :: bs => b + 256 * leVal bs

/-- Two's-complement reading of a `w`-byte unsigned value. -/
def toSigned (w : ℕ) (u : ℕ) : ℤ :=
  if 2 ^ (8 * w - 1) ≤ u then (u : ℤ) - 2 ^ (8 * w) else (u : ℤ)

/-- Split a byte list into groups of exactly `w` bytes (the
`struct.unpack` layout; Python raises on a trailing partial group, which
does not arise for the whole-frame inputs of the claims). -/
def chunksGo (w : ℕ) : List ℕ → List ℕ → List (List ℕ)
  | [], _cur => []
  | b :: bs, cur =>
    if cur.length + 1 = w then (cur ++ [b]) :: chunksGo w bs []
    else chunksGo w bs (cur ++ [b])

/-- Split a byte list into the groups of `chunksGo`, starting empty. -/
def chunksOf (w : ℕ) (l : List ℕ) : List (List ℕ) := chunksGo w l []

/-- The sample list decoded by `_rms_energy` (vad.py lines 28-39) for a
given `sample_width` argument: 2 → signed 16-bit little-endian, 1 →
unsigned byte minus 128, 4 → signed 32-bit little-endian, anything else
→ no samples (the function returns energy 0). -/
def decodeSamples (data : List ℕ) (sample_width : ℕ) : List ℤ :=
  if sample_width = 2 then (chunksOf 2 data).map fun c => toSigned 2 (leVal c)
  else if sample_width = 1 then data.map fun b => (b : ℤ) - 128
  else if sample_width = 4 then (chunksOf 4 data).map fun c => toSigned 4 (leVal c)
  else []

/-- The mean square `sum_sq / len(samples)` computed by `_rms_energy`
(vad.py lines 41-45); the function returns its square root, which is
zero, equal, or ordered exactly when this value is (square root is
strictly monotone on nonnegatives), so claims about energies are settled
at this level. -/
def rmsSq (data : List ℕ) (sample_width : ℕ) : ℚ :=
  let samples := decodeSamples data sample_width
  if samples = [] then 0
  else (((samples.map fun s => s * s).sum : ℤ) : ℚ) / (samples.length : ℚ)

/-- The squared energy of one analysis chunk as computed at the call
site `_rms_energy(chunk, sample_width * n_channels)` (vad.py line 93). -/
def energyOfFrame (sample_width n_channels : ℕ) (data : List ℕ) : ℚ :=
  rmsSq data (sample_width * n_channels)

/-- The scan loop of `find_speech_regions` (vad.py lines 104-125),
including the close-at-end-of-stream step.  State: remaining energies,
`elapsed_time`, `region_start` (`none` = no open region), accumulated
`regions`. -/
def scanRegions (chunk minr maxr threshold : ℚ) :
    List ℚ → ℚ → Option ℚ → List (ℚ × ℚ) → List (ℚ × ℚ)
  | [], elapsed, rs?, regions =>
    match rs? with
    | some rs => if minr ≤ elapsed - rs then regions ++ [(rs, elapsed)] else regions
    | none => regions
  | e :: rest, elapsed, rs?, regions =>
    let is_silence := e ≤ threshold
    match rs? with
    | some rs =>
      if maxr ≤ elapsed - rs ∨ is_silence then
        scanRegions chunk minr maxr threshold rest (elapsed + chunk) none
          (if minr ≤ elapsed - rs then regions ++ [(rs, elapsed)] else regions)
      else
        scanRegions chunk minr maxr threshold rest (elapsed + chunk) (some rs) regions
    | none =>
      if ¬ is_silence then
        scanRegions chunk minr maxr threshold rest (elapsed + chunk) (some elapsed) regions
      else
        scanRegions chunk minr maxr threshold rest (elapsed + chunk) none regions

/-- `find_speech_regions` (vad.py lines 48-127).  The WAV stream is
abstracted by its header data (`rate`, `total_frames`, and the per-chunk
squared energies are already folded into `energies`: entry `i` is the
energy value the source computes for chunk `i`, monotonically related to
`energyOfFrame` of its bytes).  `int()` on the nonnegative duration
quotient is `Nat.floor`; reading `n_chunks` chunks is `List.take`. -/
def find_speech_regions (rate frame_width total_frames : ℕ) (energies : List ℚ)
    (min_region_size max_region_size energy_threshold_percentile : ℚ) : List (ℚ × ℚ) :=
  let total_duration : ℚ := (total_frames : ℚ) / (rate : ℚ)
  let chunk_duration : ℚ := (frame_width : ℚ) / (rate : ℚ)
  let n_chunks : ℕ := ⌊total_duration / chunk_duration⌋₊
  if n_chunks = 0 then [(0, total_duration)]
  else
    let es := energies.take n_chunks
    if es = [] then [(0, total_duration)]
    else
      let threshold := percentile es energy_threshold_percentile
      scanRegions chunk_duration min_region_size max_region_size threshold es 0 none []

/-- A region group: the dict `{"start": .., "end": .., "regions": ..}`
of `group_regions` (`stop` embeds the key `"end"`). -/
structure RegionGroup where
  start : ℚ
  stop : ℚ
  regions : List (ℚ × ℚ)
deriving DecidableEq, Repr

/-- The loop of `group_regions` (vad.py lines 155-173): merge the next
region into the current group iff `gap ≤ max_gap` and the prospective
duration stays within `max_group_duration`; otherwise emit the current
group and start a new one. -/
def groupGo (max_group_duration max_gap : ℚ) (cur : RegionGroup) : List (ℚ × ℚ) → List RegionGroup
  | [] => [cur]
  | r :: rest =>
    if r.1 - cur.stop ≤ max_gap ∧ r.2 - cur.start ≤ max_group_duration then
      groupGo max_group_duration max_gap
        { start := cur.start, stop := r.2, regions := cur.regions ++ [r] } rest
    else
      cur :: groupGo max_group_duration max_gap { start := r.1, stop := r.2, regions := [r] } rest

/-- `group_regions` (vad.py lines 130-174). -/
def group_regions (regions : List (ℚ × ℚ))
    (max_group_duration max_gap : ℚ) : List RegionGroup :=
  match regions with
  | [] => []
  | r :: rest => groupGo max_group_duration max_gap { start := r.1, stop := r.2, regions := [r] } rest

/-! ## main.py -/

/-- The assignment loop of `AudioVideoTranscriber._distribute_texts`
(main.py lines 203-219): walk the regions, take `word_count` words from
the cursor, emit a segment when the slice is non-empty; returns the
segments together with the final cursor. -/
def distGo (words : List String) (total_duration : ℚ) :
    List (ℚ × ℚ) → ℕ → List Segment × ℕ
  | [], word_idx => ([], word_idx)
  | (start, stop) :: rest, word_idx =>
    let region_dur := stop - start
    let proportion := region_dur / total_duration
    let word_count := (max 1 (pyRound ((words.length : ℚ) * proportion))).toNat
    let region_words := (words.drop word_idx).take word_count
    let q := distGo words total_duration rest (word_idx + word_count)
    (if region_words = [] then q.1
     else ⟨round3 start, round3 stop, pyJoin region_words⟩ :: q.1, q.2)

/-- The word list of `_distribute_texts` (main.py lines 194-195):
`" ".join(t.strip() for t in texts if t and t.strip()).split()`. -/
def pyWords (texts : List String) : List String :=
  pySplit (pyJoin ((texts.filter fun t => t ≠ "" ∧ t.trim ≠ "").map String.trim))

/-- `AudioVideoTranscriber._distribute_texts` (main.py lines 186-225);
`self` is unused. -/
def distribute_texts (regions : List (ℚ × ℚ)) (texts : List String) : List Segment :=
  if texts = [] ∨ regions = [] then []
  else
    let words := pyWords texts
    if words = [] then []
    else
      let total_duration := ((regions.map fun r => r.2 - r.1).sum : ℚ)
      if total_duration ≤ 0 then []
      else
        let q := distGo words total_duration regions 0
        if q.2 < words.length ∧ q.1 ≠ [] then
          q.1.dropLast ++ [{ q.1.getLastD default with
            text := (q.1.getLastD default).text ++ " " ++ pyJoin (words.drop q.2) }]
        else q.1

/-- Word-level mirror of `distGo`: the same cursor walk, recording the
word slice assigned to each emitted segment instead of its joined
text. -/
def distGoW (words : List String) (total_duration : ℚ) :
    List (ℚ × ℚ) → ℕ → List (List String) × ℕ
  | [], word_idx => ([], word_idx)
  | (start, stop) :: rest, word_idx =>
    let word_count := (max 1 (pyRound ((words.length : ℚ) * ((stop - start) / total_duration)))).toNat
    let region_words := (words.drop word_idx).take word_count
    let q := distGoW words total_duration rest (word_idx + word_count)
    (if region_words = [] then q.1 else region_words :: q.1, q.2)

/-- Word-level mirror of `distribute_texts`: the word slices of the
emitted segments, with the leftover words appended to the last slice. -/
def distributeWordsModel (regions : List (ℚ × ℚ)) (texts : List String) : List (List String) :=
  if texts = [] ∨ regions = [] then []
  else
    let words := pyWords texts
    if words = [] then []
    else
      let total_duration := ((regions.map fun r => r.2 - r.1).sum : ℚ)
      if total_duration ≤ 0 then []
      else
        let q := distGoW words total_duration regions 0
        if q.2 < words.length ∧ q.1 ≠ [] then
          q.1.dropLast ++ [q.1.getLastD [] ++ words.drop q.2]
        else q.1

/-! ## Helper definitions used only to state claims -/

/-- The 1-based indices written into the document by `generate_srt`:
one per non-skipped segment, drawn from `enumerate(segments, start=1)`. -/
def emittedIndices (segments : List Segment) : List ℕ :=
  segments.enum.filterMap fun p => if p.2.text.trim = "" then none else some (p.1 + 1)

/-- Two intervals for which `group_regions` refuses to merge the second
into a group currently ending with the first. -/
def splitApart (max_group_duration max_gap : ℚ) (a b : ℚ × ℚ) : Prop :=
  ¬ (b.1 - a.2 ≤ max_gap ∧ b.2 - a.1 ≤ max_group_duration)

instance (maxd gap : ℚ) (a b : ℚ × ℚ) : Decidable (splitApart maxd gap a b) := by
  unfold splitApart; infer_instance

/-- The `(start, end)` interval list of a group list. -/
def groupBounds (gs : List RegionGroup) : List (ℚ × ℚ) :=
  gs.map fun g => (g.start, g.stop)

/-- The singleton group a lone interval becomes. -/
def mkSingletonGroup (p : ℚ × ℚ) : RegionGroup :=
  { start := p.1, stop := p.2, regions := [p] }

/-! ## Theorems -/

/-- Invariant of the VAD scan loop: the accumulated regions stay
well-formed (start before end), at least `minr` long, pairwise
non-overlapping in order, and bounded by the open-region start (or by
the clock when no region is open). -/
theorem scanRegions_inv (chunk minr maxr thr : ℚ) (hc : 0 ≤ chunk) (es : List ℚ) :
    ∀ (elapsed : ℚ) (rs? : Option ℚ) (acc : List (ℚ × ℚ)),
      (∀ r ∈ acc, r.1 ≤ r.2 ∧ minr ≤ r.2 - r.1) →
      List.Pairwise (fun a b : ℚ × ℚ => a.2 ≤ b.1) acc →
      (∀ r ∈ acc, r.2 ≤ rs?.getD elapsed) →
      (∀ s, rs? = some s → s ≤ elapsed) →
      (∀ r ∈ scanRegions chunk minr maxr thr es elapsed rs? acc, r.1 ≤ r.2 ∧ minr ≤ r.2 - r.1) ∧
      List.Pairwise (fun a b : ℚ × ℚ => a.2 ≤ b.1)
        (scanRegions chunk minr maxr thr es elapsed rs? acc) := by
  induction es with
  | nil =>
    intro elapsed rs? acc h1 h2 h3 h4
    cases rs? with
    | none =>
      simp only [scanRegions]
      exact ⟨h1, h2⟩
    | some s =>
      simp only [scanRegions]
      split
      · constructor
        · intro r hr
          rcases List.mem_append.1 hr with h | h
          · exact h1 r h
          · simp only [List.mem_singleton] at h
            subst h
            refine ⟨?_, by assumption⟩
            have := h4 s rfl
            linarith [h4 s rfl]
        · refine List.pairwise_append.2 ⟨h2, List.pairwise_singleton _ _, ?_⟩
          intro a ha b hb
          simp only [List.mem_singleton] at hb
          subst hb
          simpa using h3 a ha
      · exact ⟨h1, h2⟩
  | cons e rest ih =>
    intro elapsed rs? acc h1 h2 h3 h4
    cases rs? with
    | some s =>
      simp only [scanRegions]
      split
      · -- close the open region
        apply ih
        · intro r hr
          split at hr
          · rcases List.mem_append.1 hr with h | h
            · exact h1 r h
            · simp only [List.mem_singleton] at h
              subst h
              exact ⟨le_trans (h4 s rfl) le_rfl |>.trans le_rfl |>.trans le_rfl, by assumption⟩
          · exact h1 r hr
        · split
          · refine List.pairwise_append.2 ⟨h2, List.pairwise_singleton _ _, ?_⟩
            intro a ha b hb
            simp only [List.mem_singleton] at hb
            subst hb
            simpa using h3 a ha
          · exact h2
        · intro r hr
          have hs := h4 s rfl
          split at hr
          · rcases List.mem_append.1 hr with h | h
            · have := h3 r h
              simp only [Option.getD_some] at this
              simp only [Option.getD_none]
              linarith
            · simp only [List.mem_singleton] at h
              subst h
              simp only [Option.getD_none]
              linarith
          · have := h3 r hr
            simp only [Option.getD_some] at this
            simp only [Option.getD_none]
            linarith
        · intro s' hs'
          cases hs'
      · -- keep the region open
        apply ih
        · exact h1
        · exact h2
        · intro r hr
          simpa using h3 r hr
        · intro s' hs'
          cases hs'
          have := h4 s rfl
          linarith
    | none =>
      simp only [scanRegions]
      split
      · -- open a region at the current time
        apply ih
        · exact h1
        · exact h2
        · intro r hr
          simpa using h3 r hr
        · intro s' hs'
          cases hs'
          linarith
      · -- stay closed
        apply ih
        · exact h1
        · exact h2
        · intro r hr
          have := h3 r hr
          simp only [Option.getD_none] at this ⊢
          linarith
        · intro s' hs'
          cases hs'

/-- Every region produced by the scan loop, started from the empty
state, is well-formed, at least `minr` long, and the list is ordered and
non-overlapping. -/
theorem scanRegions_run (chunk minr maxr thr : ℚ) (hc : 0 ≤ chunk) (es : List ℚ) :
    (∀ r ∈ scanRegions chunk minr maxr thr es 0 none [], r.1 ≤ r.2 ∧ minr ≤ r.2 - r.1) ∧
    List.Pairwise (fun a b : ℚ × ℚ => a.2 ≤ b.1)
      (scanRegions chunk minr maxr thr es 0 none []) := by
  exact scanRegions_inv chunk minr maxr thr hc es 0 none [] (by simp) (by simp) (by simp)
    (by simp)

/-- C4: for every valid PCM input (any rate, frame width, frame count
and per-chunk energy sequence), the region list returned by
`find_speech_regions` is well-formed, sorted by start in non-decreasing
order, and pairwise non-overlapping: each region's start is at least the
previous region's end. -/
theorem C4_sorted_nonoverlapping (rate frame_width total_frames : ℕ)
    (energies : List ℚ) (minr maxr pct : ℚ) :
    (∀ r ∈ find_speech_regions rate frame_width total_frames energies minr maxr pct,
        r.1 ≤ r.2) ∧
    List.Pairwise (fun a b : ℚ × ℚ => a.2 ≤ b.1)
      (find_speech_regions rate frame_width total_frames energies minr maxr pct) ∧
    List.Pairwise (fun a b : ℚ × ℚ => a.1 ≤ b.1)
      (find_speech_regions rate frame_width total_frames energies minr maxr pct) := by
  have hc : (0 : ℚ) ≤ (frame_width : ℚ) / (rate : ℚ) :=
    div_nonneg (Nat.cast_nonneg _) (Nat.cast_nonneg _)
  have htd : (0 : ℚ) ≤ (total_frames : ℚ) / (rate : ℚ) :=
    div_nonneg (Nat.cast_nonneg _) (Nat.cast_nonneg _)
  simp only [find_speech_regions]
  split
  · exact ⟨by simpa using htd, by simp, by simp⟩
  · split
    · exact ⟨by simpa using htd, by simp, by simp⟩
    · obtain ⟨hall, hpair⟩ := scanRegions_run ((frame_width : ℚ) / (rate : ℚ)) minr maxr
        (percentile
          (energies.take ⌊(total_frames : ℚ) / (rate : ℚ) / ((frame_width : ℚ) / (rate : ℚ))⌋₊)
          pct)
        hc
        (energies.take ⌊(total_frames : ℚ) / (rate : ℚ) / ((frame_width : ℚ) / (rate : ℚ))⌋₊)
      exact ⟨fun r hr => (hall r hr).1, hpair,
        List.Pairwise.imp_of_mem (fun ha hb hab => le_trans (hall _ ha).1 hab) hpair⟩

/-- C3 counterexample: a one-frame file (1 audio frame at 16 kHz, frame
width 4096) takes the short-file fallback and returns the single region
`(0, 1/16000)`, whose duration is far below `min_region_size = 1/2`; so
the duration bound is not universal over all valid PCM inputs. -/
theorem C3_counterexample :
    find_speech_regions 16000 4096 1 [] (1/2) 6 (1/5) = [(0, 1/16000)] ∧
    ((1 : ℚ)/16000 - 0 < 1/2) := by
  constructor
  · norm_num [find_speech_regions, Nat.floor_eq_zero]
  · norm_num

/-- C3 amended: for inputs long enough to yield at least one analysis
chunk (`frame_width ≤ total_frames`, positive rate and frame width) with
a non-empty energy sequence, every returned region has duration at least
`min_region_size` (exactly, with no tolerance needed). Only the
short-file fallback region `(0, total_duration)` can be shorter. -/
theorem C3_amended (rate frame_width total_frames : ℕ) (energies : List ℚ)
    (minr maxr pct : ℚ) (h1 : 0 < rate) (h2 : 0 < frame_width)
    (h3 : frame_width ≤ total_frames) (h4 : energies ≠ []) :
    ∀ r ∈ find_speech_regions rate frame_width total_frames energies minr maxr pct,
      minr ≤ r.2 - r.1 := by
  have hc : (0 : ℚ) ≤ (frame_width : ℚ) / (rate : ℚ) :=
    div_nonneg (Nat.cast_nonneg _) (Nat.cast_nonneg _)
  have hrate : ((rate : ℚ)) ≠ 0 := Nat.cast_ne_zero.2 h1.ne'
  have hfw : ((frame_width : ℚ)) ≠ 0 := Nat.cast_ne_zero.2 h2.ne'
  have hdiv : (total_frames : ℚ) / (rate : ℚ) / ((frame_width : ℚ) / (rate : ℚ)) =
      (total_frames : ℚ) / (frame_width : ℚ) := by
    field_simp
  have hge : (1 : ℚ) ≤ (total_frames : ℚ) / (frame_width : ℚ) := by
    rw [le_div_iff (by positivity)]
    simpa using Nat.cast_le.2 h3
  have hn : ⌊(total_frames : ℚ) / (frame_width : ℚ)⌋₊ ≠ 0 :=
    (Nat.floor_pos.2 hge).ne'
  have htake : energies.take ⌊(total_frames : ℚ) / (frame_width : ℚ)⌋₊ ≠ [] := by
    intro h
    rcases List.take_eq_nil_iff.1 h with h | h
    · exact hn h
    · exact h4 h
  simp only [find_speech_regions, hdiv]
  rw [if_neg hn, if_neg htake]
  intro r hr
  exact ((scanRegions_run ((frame_width : ℚ) / (rate : ℚ)) minr maxr
    (percentile (energies.take ⌊(total_frames : ℚ) / (frame_width : ℚ)⌋₊) pct) hc
    (energies.take ⌊(total_frames : ℚ) / (frame_width : ℚ)⌋₊)).1 r hr).2

/-- Witness for C3 amended at a concrete seven-chunk input. -/
theorem C3_amended_witness :
    (0 < 4096) ∧ (4096 ≤ 28672) ∧ (([50, 50, 50, 50, 50, 1, 2] : List ℚ) ≠ []) ∧
    ∀ r ∈ find_speech_regions 4096 4096 28672 [50, 50, 50, 50, 50, 1, 2] (1/2) 2 (1/5),
      (1 : ℚ)/2 ≤ r.2 - r.1 :=
  ⟨by norm_num, by norm_num, by simp,
    C3_amended 4096 4096 28672 [50, 50, 50, 50, 50, 1, 2] (1/2) 2 (1/5)
      (by norm_num) (by norm_num) (by norm_num) (by simp)⟩

/-- C9 counterexample: on zero-length audio (zero frames) the detector
does not raise; it returns the degenerate region list `[(0, 0)]` via the
short-file fallback. -/
theorem C9_counterexample :
    find_speech_regions 16000 4096 0 [] (1/2) 6 (1/5) = [(0, 0)] := by
  simp [find_speech_regions]

/-- C9 amended: for every zero-frame input (with Python-valid positive
rate and frame width), `find_speech_regions` returns the single
degenerate region `[(0, 0)]` — the short-file fallback — rather than
propagating a failure. -/
theorem C9_amended (rate frame_width : ℕ) (energies : List ℚ) (minr maxr pct : ℚ)
    (h1 : 0 < rate) (h2 : 0 < frame_width) :
    find_speech_regions rate frame_width 0 energies minr maxr pct = [(0, 0)] := by
  simp [find_speech_regions]

/-- Witness for C9 amended. -/
theorem C9_amended_witness :
    (0 < 16000) ∧ (0 < 4096) ∧
    find_speech_regions 16000 4096 0 [] (1/2) 6 (1/5) = [(0, 0)] :=
  ⟨by norm_num, by norm_num,
    C9_amended 16000 4096 [] (1/2) 6 (1/5) (by norm_num) (by norm_num)⟩

/-- C5 counterexample: a stereo frame with 2-byte samples (bytes
`[1, 0, 0, 0]`, i.e. the two 16-bit samples `1` and `0`).  The code
calls `_rms_energy(chunk, sample_width * n_channels)`, so the frame is
decoded as a single 32-bit sample `1` and the mean square is `1`; the
flat per-channel-width stream has samples `[1, 0]` with mean square
`1/2`.  The energies (their square roots) therefore differ. -/
theorem C5_counterexample :
    energyOfFrame 2 2 [1, 0, 0, 0] = 1 ∧ rmsSq [1, 0, 0, 0] 2 = 1/2 ∧
    energyOfFrame 2 2 [1, 0, 0, 0] ≠ rmsSq [1, 0, 0, 0] 2 := by
  refine ⟨?_, ?_, ?_⟩ <;>
    norm_num [energyOfFrame, rmsSq, decodeSamples, chunksOf, chunksGo, leVal, toSigned] <;>
    simp

/-- C5 amended: the per-frame energy is computed by decoding the frame
at the combined width `sample_width * n_channels`: it agrees with the
flat per-channel decoding exactly in the mono case, and for 4-byte
stereo the combined width 8 is unsupported, so the energy degrades to
`0` regardless of content. -/
theorem C5_amended :
    (∀ (sample_width : ℕ) (data : List ℕ),
      energyOfFrame sample_width 1 data = rmsSq data sample_width) ∧
    (∀ data : List ℕ, energyOfFrame 4 2 data = 0) := by
  constructor
  · intro sw data
    simp [energyOfFrame]
  · intro data
    simp [energyOfFrame, rmsSq, decodeSamples]

/-- C1 counterexample: seven chunks of one second each (rate 4096,
frame width 4096), energies `[50, 50, 50, 50, 50, 1, 2]`,
`max_region_size = 2`.  The percentile threshold is `58/5`, so the first
five samples are non-silent.  At elapsed time 2 the open region
(started at 0) has running duration exactly `max_region_size` and the
current sample (energy 50) is not silent, so the region is closed —
but the output is `[(0, 2), (3, 5)]`: no region starts at 2, i.e. the
closing sample does NOT become the start of the next region (the `elif`
skips reopening in the same scan step). -/
theorem C1_counterexample :
    find_speech_regions 4096 4096 28672 [50, 50, 50, 50, 50, 1, 2] (1/2) 2 (1/5) =
      [(0, 2), (3, 5)] ∧
    ∀ r ∈ find_speech_regions 4096 4096 28672 [50, 50, 50, 50, 50, 1, 2] (1/2) 2 (1/5),
      r.1 ≠ 2 := by
  have hceil : ⌈(6 : ℚ)/5⌉ = 2 := by rw [Int.ceil_eq_iff]; norm_num
  have htn : Int.toNat 2 = 2 := rfl
  have h : find_speech_regions 4096 4096 28672 [50, 50, 50, 50, 50, 1, 2] (1/2) 2 (1/5) =
      [(0, 2), (3, 5)] := by
    norm_num [find_speech_regions, percentile, pySorted, insertSorted, scanRegions, List.getD,
      List.take, hceil, htn]
    simp
  refine ⟨h, ?_⟩
  rw [h]
  norm_num

/-- C1 amended: when an open region's running duration has reached
`max_region_size` at a non-silent sample, the region is closed at that
sample's start time and `region_start` is cleared, with NO region opened
in the same scan step; if the following sample is also non-silent, the
next region opens only there, one chunk later.  (The closing sample
itself belongs to no region.) -/
theorem C1_amended (chunk minr maxr thr elapsed s e1 e2 : ℚ) (rest : List ℚ)
    (acc : List (ℚ × ℚ)) (hmax : maxr ≤ elapsed - s) (h1 : ¬ e1 ≤ thr) (h2 : ¬ e2 ≤ thr)
    (hmin : minr ≤ elapsed - s) :
    scanRegions chunk minr maxr thr (e1 :: e2 :: rest) elapsed (some s) acc =
      scanRegions chunk minr maxr thr rest (elapsed + chunk + chunk)
        (some (elapsed + chunk)) (acc ++ [(s, elapsed)]) := by
  simp only [scanRegions]
  rw [if_pos (Or.inl hmax), if_pos hmin, if_pos h2]

/-- Witness for C1 amended at a concrete state. -/
theorem C1_amended_witness :
    ((2 : ℚ) ≤ 2 - 0) ∧ (¬ (10 : ℚ) ≤ 5) ∧ ((1 : ℚ)/2 ≤ 2 - 0) ∧
    scanRegions 1 (1/2) 2 5 [10, 10] 2 (some 0) [] =
      scanRegions 1 (1/2) 2 5 [] (2 + 1 + 1) (some (2 + 1)) ([] ++ [(0, 2)]) :=
  ⟨by norm_num, by norm_num, by norm_num,
    C1_amended 1 (1/2) 2 5 2 0 10 10 [] [] (by norm_num) (by norm_num) (by norm_num)
      (by norm_num)⟩

/-- C2 counterexample: with a first segment whose text is empty and a
second segment `"hi"`, the document contains the single emitted block
numbered `2` — the skipped segment consumed index 1, so the emitted
indices are not dense starting at 1 (dense numbering would emit `1`). -/
theorem C2_counterexample :
    generate_srt 40 [⟨0, 1, ""⟩, ⟨1, 2, "hi"⟩] =
      "2\n00:00:01,000 --> 00:00:02,000\nhi\n" ∧
    emittedIndices [⟨0, 1, ""⟩, ⟨1, 2, "hi"⟩] = [2] := by
  constructor
  · with_unfolding_all rfl
  · with_unfolding_all rfl

/-- A `filterMap` that keeps a subset of mapped values is a sublist of
the full map. -/
theorem filterMap_ite_sublist {α β : Type} (l : List α) (p : α → Prop) [DecidablePred p]
    (f : α → β) :
    List.Sublist (l.filterMap fun a => if p a then some (f a) else none) (l.map f) := by
  induction l with
  | nil => simp
  | cons a t ih =>
    by_cases hp : p a
    · simpa [List.filterMap_cons, hp] using ih.cons₂ (f a)
    · simpa [List.filterMap_cons, hp] using ih.cons (f a)

/-- The 1-based index view of `enum`. -/
theorem enum_map_fst_succ {α : Type} (l : List α) :
    l.enum.map (fun p => p.1 + 1) = List.range' 1 l.length := by
  rw [show (fun p : ℕ × α => p.1 + 1) = ((fun n => n + 1) ∘ Prod.fst) from rfl]
  rw [← List.map_map, List.enum_map_fst, List.range'_eq_map_range]
  exact List.map_congr_left fun a _ => Nat.add_comm a 1

/-- C2 amended: the indices written by `generate_srt` are the 1-based
positions of the emitted segments in the FULL input list — a skipped
(empty-text) segment still consumes its index.  The emitted indices are
strictly increasing and lie in `[1, length]`, but they need not be
dense: gaps appear exactly where segments were skipped. -/
theorem C2_amended (maxChars : ℕ) (segments : List Segment) :
    srtLines maxChars segments =
      (segments.enum.filterMap fun p =>
        if p.2.text.trim = "" then none else some (p.1 + 1, p.2)).map
        (fun q => generate_segment maxChars q.1 q.2.start q.2.stop q.2.text) ∧
    List.Sublist (emittedIndices segments) (List.range' 1 segments.length) ∧
    (emittedIndices segments).Pairwise (· < ·) := by
  have hsub : List.Sublist (emittedIndices segments) (List.range' 1 segments.length) := by
    have : emittedIndices segments =
        segments.enum.filterMap fun p =>
          if p.2.text.trim = "" then none else some (p.1 + 1) := by
      unfold emittedIndices
      rfl
    rw [this]
    have hswap : (segments.enum.filterMap fun p : ℕ × Segment =>
        if p.2.text.trim = "" then none else some (p.1 + 1)) =
        segments.enum.filterMap fun p : ℕ × Segment =>
          if ¬ p.2.text.trim = "" then some (p.1 + 1) else none := by
      apply List.filterMap_congr
      intro p _
      by_cases hp : p.2.text.trim = "" <;> simp [hp]
    rw [hswap]
    have h2 := filterMap_ite_sublist segments.enum
      (fun p : ℕ × Segment => ¬ p.2.text.trim = "") (fun p => p.1 + 1)
    rw [enum_map_fst_succ] at h2
    exact h2
  refine ⟨?_, hsub, List.Pairwise.sublist hsub (List.pairwise_lt_range' 1 segments.length)⟩
  rw [List.map_filterMap]
  apply List.filterMap_congr
  intro p _
  by_cases hp : p.2.text.trim = "" <;> simp [srtLines, hp]

/-- Writing at an index at or beyond `n` does not change the first `n`
elements. -/
theorem take_set_of_le {α : Type} (l : List α) (i n : ℕ) (v : α) (h : n ≤ i) :
    (l.set i v).take n = l.take n := by
  apply List.ext_getElem?
  intro j
  rw [List.getElem?_take, List.getElem?_take]
  split
  · rw [List.getElem?_set_ne (by omega)]
  · rfl

/-- The overlap loop only allocates fresh dicts and writes through the
fresh addresses: every prefix of the heap present at entry is intact in
the final heap. -/
theorem gwoGo_preserves (overlap : ℚ) :
    ∀ (addrs : List ℕ) (h : Heap) (n : ℕ), n ≤ h.data.length →
      (gwoGo overlap h addrs).1.data.take n = h.data.take n := by
  intro addrs
  induction addrs with
  | nil =>
    intro h n _
    simp [gwoGo]
  | cons a t ih =>
    intro h n hn
    cases t with
    | nil =>
      simp only [gwoGo, heapCopy]
      exact List.take_append_of_le_length hn
    | cons b rest =>
      simp only [gwoGo, heapCopy]
      have hlen : n ≤ ((heapSetEnd ⟨h.data ++ [heapGet h a]⟩ h.data.length
          (min (heapGet ⟨h.data ++ [heapGet h a]⟩ h.data.length).stop
            ((heapGet ⟨h.data ++ [heapGet h a]⟩ b).start - overlap))).data).length := by
        simp [heapSetEnd]
        omega
      rw [ih _ n hlen]
      simp only [heapSetEnd]
      rw [take_set_of_le _ _ _ _ hn]
      exact List.take_append_of_le_length hn

/-- C10: `generate_with_overlapping` never mutates its input segments:
after the call, every dict of the original heap — in particular every
input segment, with its `start`, `end` and `text` — is unchanged,
because each segment is copied before its end time is clamped. -/
theorem C10_no_input_mutation (maxChars : ℕ) (h : Heap) (segments : List ℕ) (overlap : ℚ) :
    (generate_with_overlapping maxChars h segments overlap).1.data.take h.data.length =
      h.data := by
  have hgo := gwoGo_preserves overlap segments h h.data.length le_rfl
  simpa [generate_with_overlapping, List.take_length] using hgo

/-- Shape of the group list produced by the merge loop: the first group
keeps the current group's start, and its end only ever grows. -/
theorem groupGo_head (maxd gap : ℚ) :
    ∀ (l : List (ℚ × ℚ)) (cur : RegionGroup),
      (∀ r ∈ l, r.1 ≤ r.2) →
      List.Chain' (fun a b : ℚ × ℚ => a.2 ≤ b.1) ((cur.start, cur.stop) :: l) →
      ∃ e' rgs tail, groupGo maxd gap cur l = RegionGroup.mk cur.start e' rgs :: tail ∧
        cur.stop ≤ e' := by
  intro l
  induction l with
  | nil =>
    intro cur _ _
    exact ⟨cur.stop, cur.regions, [], rfl, le_rfl⟩
  | cons r rest ih =>
    intro cur hwf hchain
    rw [List.chain'_cons] at hchain
    simp only [groupGo]
    split
    · have h2 : List.Chain' (fun a b : ℚ × ℚ => a.2 ≤ b.1) ((cur.start, r.2) :: rest) := by
        rw [List.chain'_cons']
        refine ⟨fun y hy => ?_, hchain.2.tail⟩
        simpa using (List.chain'_cons'.1 hchain.2).1 y hy
      obtain ⟨e', rgs, tail, heq, hle⟩ := ih
        { start := cur.start, stop := r.2, regions := cur.regions ++ [r] }
        (fun x hx => hwf x (List.mem_cons_of_mem _ hx)) h2
      exact ⟨e', rgs, tail, heq, le_trans hchain.1 (le_trans (hwf r (List.mem_cons_self _ _)) hle)⟩
    · exact ⟨cur.stop, cur.regions, _, rfl, le_rfl⟩

/-- Consecutive groups produced by the merge loop were split for a
reason that persists: re-testing the merge condition on their final
bounds still fails. -/
theorem groupGo_chain (maxd gap : ℚ) :
    ∀ (l : List (ℚ × ℚ)) (cur : RegionGroup),
      (∀ r ∈ l, r.1 ≤ r.2) →
      List.Chain' (fun a b : ℚ × ℚ => a.2 ≤ b.1) ((cur.start, cur.stop) :: l) →
      List.Chain' (splitApart maxd gap) (groupBounds (groupGo maxd gap cur l)) := by
  intro l
  induction l with
  | nil =>
    intro cur _ _
    simp [groupGo, groupBounds]
  | cons r rest ih =>
    intro cur hwf hchain
    rw [List.chain'_cons] at hchain
    simp only [groupGo]
    split
    · have h2 : List.Chain' (fun a b : ℚ × ℚ => a.2 ≤ b.1) ((cur.start, r.2) :: rest) := by
        rw [List.chain'_cons']
        refine ⟨fun y hy => ?_, hchain.2.tail⟩
        simpa using (List.chain'_cons'.1 hchain.2).1 y hy
      exact ih { start := cur.start, stop := r.2, regions := cur.regions ++ [r] }
        (fun x hx => hwf x (List.mem_cons_of_mem _ hx)) h2
    · rename_i hcond
      have hrest : List.Chain' (fun a b : ℚ × ℚ => a.2 ≤ b.1)
          (((r.1, r.2) : ℚ × ℚ) :: rest) := by simpa using hchain.2
      obtain ⟨e', rgs, tail, heq, hle⟩ := groupGo_head maxd gap rest
        { start := r.1, stop := r.2, regions := [r] }
        (fun x hx => hwf x (List.mem_cons_of_mem _ hx)) hrest
      have hchain2 := ih { start := r.1, stop := r.2, regions := [r] }
        (fun x hx => hwf x (List.mem_cons_of_mem _ hx)) hrest
      rw [heq] at hchain2 ⊢
      simp only [groupBounds, List.map_cons] at hchain2 ⊢
      rw [List.chain'_cons]
      refine ⟨?_, hchain2⟩
      unfold splitApart
      intro hmerge
      rcases not_and_or.1 hcond with hgap | hdur
      · exact hgap hmerge.1
      · exact hdur (le_trans (by linarith [hmerge.2] : r.2 - cur.start ≤ maxd) le_rfl)

/-- Re-grouping a list whose consecutive intervals all fail the merge
condition yields one singleton group per interval. -/
theorem groupGo_singletons (maxd gap : ℚ) :
    ∀ (rest : List (ℚ × ℚ)) (p : ℚ × ℚ),
      List.Chain' (splitApart maxd gap) (p :: rest) →
      groupGo maxd gap (mkSingletonGroup p) rest =
        mkSingletonGroup p :: rest.map mkSingletonGroup := by
  intro rest
  induction rest with
  | nil =>
    intro p _
    simp [groupGo]
  | cons q rest' ih =>
    intro p hchain
    rw [List.chain'_cons] at hchain
    simp only [groupGo, mkSingletonGroup]
    rw [if_neg hchain.1]
    simp only [List.map_cons]
    congr 1
    exact ih q hchain.2

/-- C7: on an ordered, non-overlapping region list, regrouping the
`(start, end)` interval list of `group_regions`' own output with the
same `max_group_duration` and `max_gap` reproduces exactly the same
groups: every output group becomes one singleton group with the same
start and end, and no two groups merge. -/
theorem C7_group_regions_idempotent (regions : List (ℚ × ℚ)) (maxd gap : ℚ)
    (hwf : ∀ r ∈ regions, r.1 ≤ r.2)
    (hord : List.Chain' (fun a b : ℚ × ℚ => a.2 ≤ b.1) regions) :
    group_regions (groupBounds (group_regions regions maxd gap)) maxd gap =
      (group_regions regions maxd gap).map fun g => mkSingletonGroup (g.start, g.stop) := by
  cases regions with
  | nil => simp [group_regions, groupBounds]
  | cons r rest =>
    have hchainr : List.Chain' (fun a b : ℚ × ℚ => a.2 ≤ b.1)
        (((r.1, r.2) : ℚ × ℚ) :: rest) := by simpa using hord
    have hsplit := groupGo_chain maxd gap rest { start := r.1, stop := r.2, regions := [r] }
      (fun x hx => hwf x (List.mem_cons_of_mem _ hx)) hchainr
    have hout : group_regions (r :: rest) maxd gap =
        groupGo maxd gap { start := r.1, stop := r.2, regions := [r] } rest := rfl
    rw [hout]
    set out := groupGo maxd gap { start := r.1, stop := r.2, regions := [r] } rest with hdef
    have hmain : group_regions (groupBounds out) maxd gap =
        (groupBounds out).map mkSingletonGroup := by
      cases hb : groupBounds out with
      | nil => simp [group_regions]
      | cons p ps =>
        rw [hb] at hsplit
        have := groupGo_singletons maxd gap ps p hsplit
        simp only [group_regions, List.map_cons]
        rw [show ({ start := p.1, stop := p.2, regions := [p] } : RegionGroup) =
          mkSingletonGroup p from rfl]
        exact this
    rw [hmain, groupBounds, List.map_map]
    rfl

/-- Witness for C7 at the spec's concrete grouping example. -/
theorem C7_witness :
    (∀ r ∈ ([(0, 1), (3/2, 2), (10, 11)] : List (ℚ × ℚ)), r.1 ≤ r.2) ∧
    List.Chain' (fun a b : ℚ × ℚ => a.2 ≤ b.1) [(0, 1), (3/2, 2), (10, 11)] ∧
    group_regions (groupBounds (group_regions [(0, 1), (3/2, 2), (10, 11)] 30 2)) 30 2 =
      (group_regions [(0, 1), (3/2, 2), (10, 11)] 30 2).map
        fun g => mkSingletonGroup (g.start, g.stop) :=
  ⟨by norm_num, by norm_num [List.chain'_cons],
    C7_group_regions_idempotent [(0, 1), (3/2, 2), (10, 11)] 30 2 (by norm_num)
      (by norm_num [List.chain'_cons])⟩

set_option maxRecDepth 4000 in
/-- Two-digit zero-pad produces exactly the two decimal digit
characters for inputs below 100. -/
theorem pad2_eq : ∀ n : ℕ, n < 100 →
    pad2 n = String.mk [Char.ofNat (48 + n / 10), Char.ofNat (48 + n % 10)] := by decide

set_option maxRecDepth 40000 in
/-- Three-digit zero-pad produces exactly the three decimal digit
characters for inputs below 1000. -/
theorem pad3_eq : ∀ n : ℕ, n < 1000 →
    pad3 n = String.mk [Char.ofNat (48 + n / 100), Char.ofNat (48 + n / 10 % 10),
      Char.ofNat (48 + n % 10)] := by decide

/-- The decimal digit characters are digits with the expected code. -/
theorem digit_facts : ∀ j : ℕ, j < 10 →
    (Char.ofNat (48 + j)).isDigit = true ∧ (Char.ofNat (48 + j)).toNat = 48 + j := by decide

/-- Parsing a well-formed formatted timestamp recovers its four
components. -/
theorem parse_format_digits (H M S ms : ℕ) (hH : H < 100) (hM : M < 60) (hS : S < 60)
    (hms : ms < 1000) :
    parse_srt_timestamp (pad2 H ++ ":" ++ pad2 M ++ ":" ++ pad2 S ++ "," ++ pad3 ms) =
      ((H * 3600 + M * 60 + S : ℕ) : ℚ) + (ms : ℚ) / 1000 := by
  rw [pad2_eq H hH, pad2_eq M (by omega), pad2_eq S (by omega), pad3_eq ms hms]
  have hdata : (String.mk [Char.ofNat (48 + H / 10), Char.ofNat (48 + H % 10)] ++ ":" ++
      String.mk [Char.ofNat (48 + M / 10), Char.ofNat (48 + M % 10)] ++ ":" ++
      String.mk [Char.ofNat (48 + S / 10), Char.ofNat (48 + S % 10)] ++ "," ++
      String.mk [Char.ofNat (48 + ms / 100), Char.ofNat (48 + ms / 10 % 10),
        Char.ofNat (48 + ms % 10)]).data =
      [Char.ofNat (48 + H / 10), Char.ofNat (48 + H % 10), ':',
       Char.ofNat (48 + M / 10), Char.ofNat (48 + M % 10), ':',
       Char.ofNat (48 + S / 10), Char.ofNat (48 + S % 10), ',',
       Char.ofNat (48 + ms / 100), Char.ofNat (48 + ms / 10 % 10), Char.ofNat (48 + ms % 10)] := by
    simp [String.data_append]
  simp only [parse_srt_timestamp, hdata]
  rw [if_pos]
  · rw [(digit_facts (H / 10) (by omega)).2, (digit_facts (H % 10) (by omega)).2,
      (digit_facts (M / 10) (by omega)).2, (digit_facts (M % 10) (by omega)).2,
      (digit_facts (S / 10) (by omega)).2, (digit_facts (S % 10) (by omega)).2,
      (digit_facts (ms / 100) (by omega)).2, (digit_facts (ms / 10 % 10) (by omega)).2,
      (digit_facts (ms % 10) (by omega)).2]
    have e1 : 10 * (48 + H / 10 - 48) + (48 + H % 10 - 48) = H := by omega
    have e2 : 10 * (48 + M / 10 - 48) + (48 + M % 10 - 48) = M := by omega
    have e3 : 10 * (48 + S / 10 - 48) + (48 + S % 10 - 48) = S := by omega
    have e4 : 100 * (48 + ms / 100 - 48) + 10 * (48 + ms / 10 % 10 - 48) + (48 + ms % 10 - 48) = ms := by
      omega
    rw [e1, e2, e3, e4]
  · refine ⟨?_, ?_, trivial, ?_, ?_, trivial, ?_, ?_, trivial, ?_, ?_, ?_⟩ <;>
      exact (digit_facts _ (by omega)).1

/-- C6: for every `t` in `[0, 359999.999]`,
`parse_srt_timestamp (format_timestamp t)` reconstructs `t` to
millisecond precision: `|reconstructed - t| < 0.001`.  (The
reconstruction equals `⌊1000 t⌋ / 1000`.) -/
theorem C6_roundtrip (t : ℚ) (h0 : 0 ≤ t) (h1 : t ≤ 359999999/1000) :
    |parse_srt_timestamp (format_timestamp t) - t| < 1/1000 := by
  have hH : ⌊t / 3600⌋₊ = ⌊t⌋₊ / 3600 := Nat.floor_div_ofNat t 3600
  have hd : ⌊t / 60⌋₊ = ⌊t⌋₊ / 60 := Nat.floor_div_ofNat t 60
  have hM : ⌊pmod t 3600 / 60⌋₊ = ⌊t⌋₊ / 60 - 60 * (⌊t⌋₊ / 3600) := by
    have harg : pmod t 3600 / 60 = t / 60 - ((60 * (⌊t⌋₊ / 3600) : ℕ) : ℚ) := by
      rw [pmod, hH]
      push_cast
      ring
    rw [harg, Nat.floor_sub_nat, hd]
  have hS : ⌊pmod t 60⌋₊ = ⌊t⌋₊ - 60 * (⌊t⌋₊ / 60) := by
    have harg : pmod t 60 = t - ((60 * (⌊t⌋₊ / 60) : ℕ) : ℚ) := by
      rw [pmod, hd]
      push_cast
      ring
    rw [harg, Nat.floor_sub_nat]
  have hone : ⌊t / 1⌋₊ = ⌊t⌋₊ := by rw [div_one]
  have hms : ⌊pmod t 1 * 1000⌋₊ = ⌊1000 * t⌋₊ - 1000 * ⌊t⌋₊ := by
    have harg : pmod t 1 * 1000 = 1000 * t - ((1000 * ⌊t⌋₊ : ℕ) : ℚ) := by
      rw [pmod, hone]
      push_cast
      ring
    rw [harg, Nat.floor_sub_nat]
  have hFN : ⌊t⌋₊ = ⌊1000 * t⌋₊ / 1000 := by
    conv_lhs => rw [show t = 1000 * t / 1000 by ring]
    exact Nat.floor_div_ofNat (1000 * t) 1000
  have hFlt : ⌊t⌋₊ < 360000 := by
    rw [Nat.floor_lt h0]
    push_cast
    linarith
  have hfmt : format_timestamp t =
      pad2 (⌊t⌋₊ / 3600) ++ ":" ++ pad2 (⌊t⌋₊ / 60 - 60 * (⌊t⌋₊ / 3600)) ++ ":" ++
        pad2 (⌊t⌋₊ - 60 * (⌊t⌋₊ / 60)) ++ "," ++ pad3 (⌊1000 * t⌋₊ - 1000 * ⌊t⌋₊) := by
    rw [format_timestamp, hH, hM, hS, hms]
  have hsub : 1000 * ⌊t⌋₊ ≤ ⌊1000 * t⌋₊ := by omega
  have hparse : parse_srt_timestamp (format_timestamp t) =
      (((⌊t⌋₊ / 3600) * 3600 + (⌊t⌋₊ / 60 - 60 * (⌊t⌋₊ / 3600)) * 60 +
        (⌊t⌋₊ - 60 * (⌊t⌋₊ / 60)) : ℕ) : ℚ) + ((⌊1000 * t⌋₊ - 1000 * ⌊t⌋₊ : ℕ) : ℚ) / 1000 := by
    rw [hfmt]
    exact parse_format_digits _ _ _ _ (by omega) (by omega) (by omega) (by omega)
  have hsum : (⌊t⌋₊ / 3600) * 3600 + (⌊t⌋₊ / 60 - 60 * (⌊t⌋₊ / 3600)) * 60 +
      (⌊t⌋₊ - 60 * (⌊t⌋₊ / 60)) = ⌊t⌋₊ := by omega
  rw [hparse, hsum]
  have hcast : ((⌊1000 * t⌋₊ - 1000 * ⌊t⌋₊ : ℕ) : ℚ) =
      ((⌊1000 * t⌋₊ : ℕ) : ℚ) - 1000 * ((⌊t⌋₊ : ℕ) : ℚ) := by
    push_cast [hsub]
    ring
  rw [hcast]
  have hle : ((⌊1000 * t⌋₊ : ℕ) : ℚ) ≤ 1000 * t := Nat.floor_le (by positivity)
  have hlt : 1000 * t < ((⌊1000 * t⌋₊ : ℕ) : ℚ) + 1 := Nat.lt_floor_add_one (1000 * t)
  rw [abs_lt]
  constructor <;> nlinarith [hle, hlt]

/-- Witness for C6 at `t = 7/2`. -/
theorem C6_roundtrip_witness :
    ((0 : ℚ) ≤ 7/2) ∧ ((7 : ℚ)/2 ≤ 359999999/1000) ∧
    |parse_srt_timestamp (format_timestamp (7/2)) - 7/2| < 1/1000 :=
  ⟨by norm_num, by norm_num, C6_roundtrip (7/2) (by norm_num) (by norm_num)⟩

/-- `pyJoin` of a non-empty cons. -/
theorem pyJoin_cons (x : String) (l : List String) (h : l ≠ []) :
    pyJoin (x :: l) = x ++ " " ++ pyJoin l := by
  cases l with
  | nil => exact absurd rfl h
  | cons y ys => rfl

/-- Python `" ".join` splits over list append (both sides non-empty). -/
theorem pyJoin_append (a b : List String) (ha : a ≠ []) (hb : b ≠ []) :
    pyJoin (a ++ b) = pyJoin a ++ " " ++ pyJoin b := by
  induction a with
  | nil => exact absurd rfl ha
  | cons x t ih =>
    cases t with
    | nil =>
      simpa using pyJoin_cons x b hb
    | cons y ys =>
      rw [List.cons_append, pyJoin_cons x ((y :: ys) ++ b) (by simp),
        pyJoin_cons x (y :: ys) (by simp), ih (by simp)]
      simp [String.append_assoc]

/-- `getLastD` commutes with `map`. -/
theorem getLastD_map {α β : Type} (f : α → β) (l : List α) (d : α) :
    (l.map f).getLastD (f d) = f (l.getLastD d) := by
  induction l generalizing d with
  | nil => rfl
  | cons a t ih => rw [List.map_cons, List.getLastD_cons, List.getLastD_cons, ih]

/-- The `getLastD` of a non-empty list is a member. -/
theorem getLastD_mem {α : Type} (l : List α) (d : α) (h : l ≠ []) : l.getLastD d ∈ l := by
  induction l generalizing d with
  | nil => exact absurd rfl h
  | cons a t ih =>
    rw [List.getLastD_cons]
    cases t with
    | nil => simp [List.getLastD]
    | cons b u => exact List.mem_cons_of_mem _ (ih a (by simp))

/-- `distGo` and its word-level mirror `distGoW` walk the regions in
lockstep: same cursor, and each emitted segment's text is the
space-join of the corresponding word slice. -/
theorem distGo_distGoW (words : List String) (total : ℚ) :
    ∀ (regions : List (ℚ × ℚ)) (idx : ℕ),
      (distGo words total regions idx).1.map Segment.text =
        (distGoW words total regions idx).1.map pyJoin ∧
      (distGo words total regions idx).2 = (distGoW words total regions idx).2 := by
  intro regions
  induction regions with
  | nil => intro idx; exact ⟨rfl, rfl⟩
  | cons r rest ih =>
    intro idx
    obtain ⟨r1, r2⟩ := r
    simp only [distGo, distGoW]
    refine ⟨?_, (ih _).2⟩
    split
    · exact (ih _).1
    · simp only [List.map_cons]
      rw [(ih _).1]

/-- Every slice recorded by `distGoW` is non-empty. -/
theorem distGoW_slices_ne_nil (words : List String) (total : ℚ) :
    ∀ (regions : List (ℚ × ℚ)) (idx : ℕ), ∀ s ∈ (distGoW words total regions idx).1, s ≠ [] := by
  intro regions
  induction regions with
  | nil => intro idx s hs; simp [distGoW] at hs
  | cons r rest ih =>
    intro idx s hs
    obtain ⟨r1, r2⟩ := r
    simp only [distGoW] at hs
    split at hs
    · exact ih _ s hs
    · rcases List.mem_cons.1 hs with h | h
      · subst h; assumption
      · exact ih _ s h

/-- With a non-empty word list, the first region always emits
(`word_count` is at least 1), so the output is non-empty. -/
theorem distGoW_head_ne_nil (words : List String) (total : ℚ) (r : ℚ × ℚ)
    (rest : List (ℚ × ℚ)) (hw : words ≠ []) :
    (distGoW words total (r :: rest) 0).1 ≠ [] := by
  obtain ⟨r1, r2⟩ := r
  simp only [distGoW]
  have hwc : 1 ≤ (max 1 (pyRound ((words.length : ℚ) * ((r2 - r1) / total)))).toNat := by
    have : (1 : ℤ) ≤ max 1 (pyRound ((words.length : ℚ) * ((r2 - r1) / total))) :=
      le_max_left _ _
    omega
  have hslice : (words.drop 0).take
      (max 1 (pyRound ((words.length : ℚ) * ((r2 - r1) / total)))).toNat ≠ [] := by
    rw [List.drop_zero]
    intro hcon
    rcases List.take_eq_nil_iff.1 hcon with h | h
    · omega
    · exact hw h
  rw [if_neg hslice]
  simp

/-- The word slices taken by `distGoW` are consecutive: their
concatenation followed by the words remaining at the final cursor is
exactly the words from the starting cursor. -/
theorem distGoW_flatten (words : List String) (total : ℚ) :
    ∀ (regions : List (ℚ × ℚ)) (idx : ℕ),
      (distGoW words total regions idx).1.flatten ++
        words.drop (distGoW words total regions idx).2 = words.drop idx := by
  intro regions
  induction regions with
  | nil => intro idx; simp [distGoW]
  | cons r rest ih =>
    intro idx
    obtain ⟨r1, r2⟩ := r
    simp only [distGoW]
    set wc := (max 1 (pyRound ((words.length : ℚ) * ((r2 - r1) / total)))).toNat with hwc
    have hwc1 : 1 ≤ wc := by
      have : (1 : ℤ) ≤ max 1 (pyRound ((words.length : ℚ) * ((r2 - r1) / total))) :=
        le_max_left _ _
      omega
    split
    · rename_i hnil
      rcases List.take_eq_nil_iff.1 hnil with h | h
      · omega
      · have hlen : words.length ≤ idx := by
          have := List.drop_eq_nil_iff.1 h
          omega
        rw [ih (idx + wc)]
        rw [List.drop_eq_nil_of_le hlen, List.drop_eq_nil_of_le (by omega)]
    · rw [List.flatten_cons, List.append_assoc, ih (idx + wc)]
      have hdd : words.drop (idx + wc) = (words.drop idx).drop wc := by
        rw [List.drop_drop, Nat.add_comm]
      rw [hdd]
      exact List.take_append_drop wc (words.drop idx)

/-- `getLastD` of a non-empty list is its `getLast`. -/
theorem getLastD_eq_getLast {α : Type} (l : List α) (d : α) (h : l ≠ []) :
    l.getLastD d = l.getLast h := by
  induction l generalizing d with
  | nil => exact absurd rfl h
  | cons a t ih =>
    rw [List.getLastD_cons]
    cases t with
    | nil => rfl
    | cons b u => rw [List.getLast_cons (by simp)]; exact ih a (by simp)

/-- C8: in the Segment Assembler fallback, with a non-empty word list,
non-empty region list and positive total duration: each region in order
takes `max(1, round(total_words * region_duration / total_duration))`
words from the cursor, the emitted texts are exactly the space-joins of
the corresponding word slices (leftover words after the last region are
appended to the last emitted text), and the concatenation of all
assigned slices is exactly the full word sequence, so no word is
dropped; in particular three equal-duration regions with six words
receive two words each. -/
theorem C8_fallback (regions : List (ℚ × ℚ)) (texts : List String)
    (hr : regions ≠ []) (hw : pyWords texts ≠ [])
    (ht : 0 < ((regions.map fun r => r.2 - r.1).sum : ℚ)) :
    (distribute_texts regions texts).map Segment.text =
      (distributeWordsModel regions texts).map pyJoin ∧
    (distributeWordsModel regions texts).flatten = pyWords texts ∧
    distribute_texts [(0, 1), (1, 2), (2, 3)] ["a b c d e f"] =
      [⟨0, 1, "a b"⟩, ⟨1, 2, "c d"⟩, ⟨2, 3, "e f"⟩] := by
  have htex : texts ≠ [] := by
    intro h
    subst h
    exact hw rfl
  have hguard : ¬(texts = [] ∨ regions = []) := by
    intro h
    rcases h with h | h
    · exact htex h
    · exact hr h
  obtain ⟨hmap, hidx⟩ :=
    distGo_distGoW (pyWords texts) ((regions.map fun r => r.2 - r.1).sum) regions 0
  have hlen : (distGo (pyWords texts) ((regions.map fun r => r.2 - r.1).sum) regions 0).1.length =
      (distGoW (pyWords texts) ((regions.map fun r => r.2 - r.1).sum) regions 0).1.length := by
    have := congrArg List.length hmap
    simpa using this
  have hW_ne : (distGoW (pyWords texts) ((regions.map fun r => r.2 - r.1).sum) regions 0).1 ≠ [] := by
    cases regions with
    | nil => exact absurd rfl hr
    | cons r rest => exact distGoW_head_ne_nil _ _ r rest hw
  have h_ne : (distGo (pyWords texts) ((regions.map fun r => r.2 - r.1).sum) regions 0).1 ≠ [] := by
    intro h
    apply hW_ne
    have hzero : (distGoW (pyWords texts)
        ((regions.map fun r => r.2 - r.1).sum) regions 0).1.length = 0 := by
      rw [← hlen, h]
      rfl
    exact List.length_eq_zero.1 hzero
  refine ⟨?_, ?_, by with_unfolding_all rfl⟩
  · simp only [distribute_texts, distributeWordsModel, if_neg hguard, if_neg hw,
      if_neg (not_le.2 ht)]
    rw [hidx]
    by_cases hcond : (distGoW (pyWords texts) ((regions.map fun r => r.2 - r.1).sum) regions 0).2 <
        (pyWords texts).length
    · rw [if_pos ⟨hcond, h_ne⟩, if_pos ⟨hcond, hW_ne⟩]
      rw [List.map_append, List.map_append]
      congr 1
      · rw [List.map_dropLast, List.map_dropLast, hmap]
      · simp only [List.map_cons, List.map_nil]
        congr 1
        have h1 : Segment.text (List.getLastD
            (distGo (pyWords texts) ((regions.map fun r => r.2 - r.1).sum) regions 0).1 default) =
            pyJoin (List.getLastD
              (distGoW (pyWords texts) ((regions.map fun r => r.2 - r.1).sum) regions 0).1 []) := by
          rw [← getLastD_map Segment.text _ default, ← getLastD_map pyJoin _ []]
          rw [hmap]
          rfl
        have hlast_ne : (List.getLastD
            (distGoW (pyWords texts) ((regions.map fun r => r.2 - r.1).sum) regions 0).1 []) ≠ [] :=
          distGoW_slices_ne_nil _ _ regions 0 _ (getLastD_mem _ _ hW_ne)
        have hdrop_ne : (pyWords texts).drop
            (distGoW (pyWords texts) ((regions.map fun r => r.2 - r.1).sum) regions 0).2 ≠ [] := by
          intro h
          have := List.drop_eq_nil_iff.1 h
          omega
        rw [pyJoin_append _ _ hlast_ne hdrop_ne, ← h1]
    · rw [if_neg (by intro h; exact hcond h.1), if_neg (by intro h; exact hcond h.1)]
      exact hmap
  · simp only [distributeWordsModel, if_neg hguard, if_neg hw, if_neg (not_le.2 ht)]
    have hflat := distGoW_flatten (pyWords texts)
      ((regions.map fun r => r.2 - r.1).sum) regions 0
    rw [List.drop_zero] at hflat
    by_cases hcond : (distGoW (pyWords texts) ((regions.map fun r => r.2 - r.1).sum) regions 0).2 <
        (pyWords texts).length
    · rw [if_pos ⟨hcond, hW_ne⟩]
      rw [List.flatten_append, List.flatten_cons, List.flatten_nil, List.append_nil]
      have hsplit : (distGoW (pyWords texts) ((regions.map fun r => r.2 - r.1).sum) regions 0).1 =
          (distGoW (pyWords texts) ((regions.map fun r => r.2 - r.1).sum) regions 0).1.dropLast ++
            [(distGoW (pyWords texts) ((regions.map fun r => r.2 - r.1).sum) regions 0).1.getLastD []] := by
        rw [getLastD_eq_getLast _ _ hW_ne]
        exact (List.dropLast_concat_getLast hW_ne).symm
      calc (distGoW (pyWords texts) ((regions.map fun r => r.2 - r.1).sum) regions 0).1.dropLast.flatten ++
          ((distGoW (pyWords texts) ((regions.map fun r => r.2 - r.1).sum) regions 0).1.getLastD [] ++
            (pyWords texts).drop (distGoW (pyWords texts) ((regions.map fun r => r.2 - r.1).sum) regions 0).2) =
          (distGoW (pyWords texts) ((regions.map fun r => r.2 - r.1).sum) regions 0).1.flatten ++
            (pyWords texts).drop (distGoW (pyWords texts) ((regions.map fun r => r.2 - r.1).sum) regions 0).2 := by
            conv_rhs => rw [hsplit]
            rw [List.flatten_append, List.flatten_cons, List.flatten_nil, List.append_nil,
              List.append_assoc]
        _ = pyWords texts := hflat
    · rw [if_neg (by intro h; exact hcond h.1)]
      have hdrop : (pyWords texts).drop
          (distGoW (pyWords texts) ((regions.map fun r => r.2 - r.1).sum) regions 0).2 = [] :=
        List.drop_eq_nil_of_le (by omega)
      rw [hdrop, List.append_nil] at hflat
      exact hflat

/-- Witness for C8 at the spec's concrete example. -/
theorem C8_fallback_witness :
    (([(0, 1), (1, 2), (2, 3)] : List (ℚ × ℚ)) ≠ []) ∧
    (pyWords ["a b c d e f"] ≠ []) ∧
    (0 < ((([(0, 1), (1, 2), (2, 3)] : List (ℚ × ℚ)).map fun r => r.2 - r.1).sum : ℚ)) ∧
    (distribute_texts [(0, 1), (1, 2), (2, 3)] ["a b c d e f"]).map Segment.text =
      (distributeWordsModel [(0, 1), (1, 2), (2, 3)] ["a b c d e f"]).map pyJoin :=
  ⟨by simp,
    by rw [show pyWords ["a b c d e f"] = ["a", "b", "c", "d", "e", "f"] from by
      with_unfolding_all rfl]; simp,
    by norm_num [List.sum_cons],
    (C8_fallback [(0, 1), (1, 2), (2, 3)] ["a b c d e f"] (by simp)
      (by rw [show pyWords ["a b c d e f"] = ["a", "b", "c", "d", "e", "f"] from by
        with_unfolding_all rfl]; simp)
      (by norm_num [List.sum_cons])).1⟩
